import Mathlib

set_option maxRecDepth 4000

/-
Verification of the Wordle-solving notebook (src/wordle/Solving Wordle.ipynb).

Shallow embedding conventions:
- a word is a list of characters (a Python string);
- a letter set is a finite set of characters (a Python set of letters);
- the candidate pool is an association list from words to their distinct-letter
  sets, in insertion order (a Python dict);
- the board is a list of optional characters (Python uses "" for an empty slot);
- buckets are an association list from overlap counts to word lists, in
  first-insertion key order (a Python defaultdict of lists);
- a frequency table is an association list from letters to counts, in the
  order of the Python dict holding it.
-/

abbrev Word := List Char
abbrev LetterSet := Finset Char
abbrev Table := List (Char × Nat)
abbrev Pool := List (Word × LetterSet)
abbrev Buckets := List (Nat × List Word)
abbrev Board := List (Option Char)

def VOWELS : LetterSet := {'a', 'e', 'i', 'o', 'u', 'y'}

def CONSONANTS : LetterSet :=
  {'b', 'c', 'd', 'f', 'g', 'h', 'j', 'k', 'l', 'm', 'n', 'p', 'q', 'r',
   's', 't', 'v', 'w', 'x', 'z'}

def distinctLetters (w : Word) : LetterSet := w.toFinset

/-
play_wordle(guess, word_of_the_day): zips the secret with the guess (Python
zip truncates to the shorter of the two), putting the guessed letter on the
board where it matches the secret position and an empty slot otherwise;
has_letters is set(guess) intersected with set(word_of_the_day).
-/
def play_wordle (guess word_of_the_day : Word) : Board × LetterSet :=
  (List.zipWith
      (fun correct_letter guessed_letter =>
        if correct_letter = guessed_letter then some guessed_letter else none)
      word_of_the_day guess,
   distinctLetters guess ∩ distinctLetters word_of_the_day)

/-
The positional check of eliminate: for every board slot holding a letter the
candidate must carry that letter at the same position.  The notebook indexes
candidate_word[i] for i below len(game); every call site passes candidates of
the board's length, so the case of a candidate shorter than the board (where
Python would raise IndexError) is unreachable and modelled as a vacuous pass.
-/
def matchesBoard : Board → Word → Bool
  | [], _ => true
  | _ :: _, [] => true
  | none :: bs, _ :: ws => matchesBoard bs ws
  | some c :: bs, x :: ws => x == c && matchesBoard bs ws

/-
eliminate(cands, game, found, contra) pops a candidate word when its stored
letter set misses a found letter, meets a contra letter, or disagrees with a
filled board slot; surviving entries keep their order.  The in-place dict
mutation is a pure filter over the entries.
-/
def keeps (game : Board) (found contra : LetterSet) (p : Word × LetterSet) : Bool :=
  (p.2 ∩ found).card == found.card &&
  (p.2 ∩ contra).card == 0 &&
  matchesBoard game p.1

def eliminate (cands : Pool) (game : Board) (found contra : LetterSet) : Pool :=
  cands.filter (keeps game found contra)

/- The candidate pool of the notebook's own elimination test (Scenario D). -/
def poolD : Pool :=
  [(['c','i','g','a','r'], {'a','c','g','i','r'}),
   (['r','e','b','u','t'], {'b','e','r','t','u'}),
   (['s','i','s','t','e'], {'i','s','t','e'}),
   (['h','u','m','p','h'], {'h','m','p','u'})]

/- A single feedback application, as folded over a game's feedback sequence. -/
def eliminateStep (p : Pool) (fb : Board × LetterSet × LetterSet) : Pool :=
  eliminate p fb.1 fb.2.1 fb.2.2

/-
Rank weight derived inside break_ties: the dict comprehension enumerates the
reversed global vowel frequency table (ascending by count) and maps each
letter to its enumeration index; uv.get(letter, 0) yields 0 for letters not in
the table.  A frequency table is a Python dict, so its keys are distinct and
the index of a letter is its position in the reversed key list.
-/
def uvRank (tbl : Table) (c : Char) : Nat :=
  ((tbl.reverse.map Prod.fst).findIdx? (fun x => x = c)).getD 0

/- Tie-break score of a word: the sum of its characters' rank weights, one
summand per occurrence. -/
def tieScore (tbl : Table) (w : Word) : Nat := (w.map (uvRank tbl)).sum

/-
Python sorted(key, reverse=True) is a stable descending sort; embedded as a
stable insertion sort: an element is placed before the first element of not
larger score, so equal scores keep their original relative order.
-/
def insertDesc {α : Type} (sc : α → Nat) (a : α) : List α → List α
  | [] => [a]
  | b :: l => if sc a < sc b then b :: insertDesc sc a l else a :: b :: l

def sortDesc {α : Type} (sc : α → Nat) (l : List α) : List α :=
  l.foldr (insertDesc sc) []

/-
break_ties(cands, usage): cands here is the bucket dict; every bucket list is
re-sorted descending by the tie-break score.  The usage parameter is unused by
the Python body, which reads the module-level global usage_vowels (passed here
explicitly as gUV, the first argument).
-/
def break_ties (gUV : Table) (cands : Buckets) (usage : Table) : Buckets :=
  cands.map (fun p => (p.1, sortDesc (tieScore gUV) p.2))

/-
The defaultdict(list) of feature_bucket: appending a word at a key appends to
the existing list, or creates the key at the end on first use.
-/
def bucketsAdd (k : Nat) (w : Word) : Buckets → Buckets
  | [] => [(k, [w])]
  | (k1, ws) :: bs =>
      if k1 = k then (k1, ws ++ [w]) :: bs else (k1, ws) :: bucketsAdd k w bs

/- Bucket dict access with default [] (never hit on a key produced by
bucketsAdd). -/
def bucketsGet (k : Nat) : Buckets → List Word
  | [] => []
  | (k1, ws) :: bs => if k1 = k then ws else bucketsGet k bs

/-
feature_bucket(cands, usage, has_vowels): each pool word goes to the bucket
keyed by the overlap of its stored letter set with the chosen letter class,
then break_ties re-orders every bucket.
-/
def bucketize (cset : LetterSet) (cands : Pool) : Buckets :=
  cands.foldl (fun bs p => bucketsAdd (p.2 ∩ cset).card p.1 bs) []

def feature_bucket (gUV : Table) (cands : Pool) (usage : Table)
    (has_vowels : Bool) : Buckets :=
  break_ties gUV (bucketize (if has_vowels then VOWELS else CONSONANTS) cands) usage

/-
choose_guess(buckets): the first word of the bucket with the largest key.
Python raises on an empty bucket dict (max of an empty sequence) or an empty
bucket list (index 0); both are modelled as none.
-/
def choose_guess (buckets : Buckets) : Option Word :=
  match (buckets.map Prod.fst).max? with
  | none => none
  | some choose => (bucketsGet choose buckets).head?

def solved_game (board : Board) : Bool := board.all (fun i => i.isSome)

structure GameResult where
  board : List Char
  attempts : Nat
  solved : Bool
deriving DecidableEq, Repr

/- The joined board string of a game result: empty slots contribute nothing. -/
def joinBoard (board : Board) : List Char := board.filterMap id

/-
The ways a compute_wordle call can raise in Python: choose_guess on an empty
candidate pool (ValueError from max on an empty sequence), and the final
result construction reading the loop-local board variable when the loop body
never ran (UnboundLocalError, reachable exactly when max_tries is below 1).
-/
inductive RunError
  | emptyBuckets
  | unboundBoard
deriving DecidableEq, Repr

/- The code run after the while loop exits: it reads the board left by the
last play_wordle of the loop body, which is unbound if the body never ran. -/
def wordleExit (attempt : Nat) (lastBoard : Option Board) :
    Except RunError GameResult × List (Nat × Word) :=
  match lastBoard with
  | some b => (Except.ok ⟨joinBoard b, attempt, false⟩, [])
  | none => (Except.error RunError.unboundBoard, [])

/-
The while loop of compute_wordle.  One recursive step is one loop iteration:
a vowel-phase guess at the current attempt, then (when not solved) a
consonant-phase guess at attempt + 1, then (when still not solved) the next
iteration at attempt + 2.  Both feature_bucket calls receive the usage_vowels
parameter uvP, exactly as in the source; break_ties itself reads the global
gUV.  Alongside the result the loop returns the trace of evaluated guesses
with their attempt numbers.

fuel only bounds the recursion.  Starting from attempt 1 with fuel
maxTries + 1, each iteration consumes one fuel and advances attempt by 2, so
the guard attempt <= maxTries fails strictly before fuel reaches 0; the
fuel = 0 branch therefore coincides with the guard-false exit on every
reachable call, and the function is the Python loop extensionally.
-/
def nextCands (cands : Pool) (g : Word) (secret : Word) : Pool :=
  eliminate cands (play_wordle g secret).1 (play_wordle g secret).2
    (distinctLetters g \ (play_wordle g secret).2)

def computeWordleAux (gUV uvP : Table) (secret : Word) (maxTries : Nat) :
    Nat → Pool → Nat → Option Board →
      Except RunError GameResult × List (Nat × Word)
  | 0, _, attempt, lastBoard => wordleExit attempt lastBoard
  | fuel + 1, cands, attempt, lastBoard =>
    if attempt ≤ maxTries then
      match choose_guess (feature_bucket gUV cands uvP true) with
      | none => (Except.error RunError.emptyBuckets, [])
      | some g1 =>
        if solved_game (play_wordle g1 secret).1 then
          (Except.ok ⟨joinBoard (play_wordle g1 secret).1, attempt, true⟩,
           [(attempt, g1)])
        else
          match choose_guess (feature_bucket gUV (nextCands cands g1 secret)
              uvP false) with
          | none => (Except.error RunError.emptyBuckets, [(attempt, g1)])
          | some g2 =>
            if solved_game (play_wordle g2 secret).1 then
              (Except.ok ⟨joinBoard (play_wordle g2 secret).1, attempt + 1, true⟩,
               [(attempt, g1), (attempt + 1, g2)])
            else
              ((computeWordleAux gUV uvP secret maxTries fuel
                  (nextCands (nextCands cands g1 secret) g2 secret)
                  (attempt + 2) (some (play_wordle g2 secret).1)).1,
               (attempt, g1) :: (attempt + 1, g2) ::
                 (computeWordleAux gUV uvP secret maxTries fuel
                   (nextCands (nextCands cands g1 secret) g2 secret)
                   (attempt + 2) (some (play_wordle g2 secret).1)).2)
    else wordleExit attempt lastBoard

/-
compute_wordle(cands, wordle_word, usage_vowels, usage_cons, max_tries):
the usage_cons parameter ucP is never read by the Python body, and the
usage_vowels parameter uvP is only ever forwarded to feature_bucket (whose
break_ties ignores it in favour of the global gUV).
-/
def compute_wordle (gUV : Table) (cands : Pool) (wordle_word : Word)
    (uvP ucP : Table) (maxTries : Nat) :
    Except RunError GameResult × List (Nat × Word) :=
  computeWordleAux gUV uvP wordle_word maxTries (maxTries + 1) cands 1 none

/- Helper lemmas about the embedding. -/

theorem matchesBoard_eq_true (board : Board) (w : Word) :
    matchesBoard board w = true ↔
      ∀ i, i < board.length → i < w.length →
        ∀ c : Char, board[i]? = some (some c) → w[i]? = some c := by
  induction board generalizing w with
  | nil => simp [matchesBoard]
  | cons b bs ih =>
    cases w with
    | nil => simp [matchesBoard]
    | cons x xs =>
      cases b with
      | none =>
        show matchesBoard bs xs = true ↔ _
        rw [ih xs]
        constructor
        · intro h i hi hw c hc
          cases i with
          | zero => simp at hc
          | succ n =>
            simp only [List.getElem?_cons_succ] at hc ⊢
            exact h n (by simpa using hi) (by simpa using hw) c hc
        · intro h i hi hw c hc
          have hx := h (i + 1) (by simpa using hi) (by simpa using hw) c
          simp only [List.getElem?_cons_succ] at hx
          exact hx hc
      | some c0 =>
        show (x == c0 && matchesBoard bs xs) = true ↔ _
        rw [Bool.and_eq_true, beq_iff_eq, ih xs]
        constructor
        · rintro ⟨hx, h⟩ i hi hw c hc
          cases i with
          | zero =>
            simp only [List.getElem?_cons_zero, Option.some.injEq] at hc ⊢
            rw [hx, hc]
          | succ n =>
            simp only [List.getElem?_cons_succ] at hc ⊢
            exact h n (by simpa using hi) (by simpa using hw) c hc
        · intro h
          refine ⟨?_, ?_⟩
          · have hx := h 0 (by simp) (by simp) c0 (by simp)
            simpa using hx
          · intro i hi hw c hc
            have hx := h (i + 1) (by simpa using hi) (by simpa using hw) c
            simp only [List.getElem?_cons_succ] at hx
            exact hx hc

theorem keeps_eq_true (game : Board) (found contra : LetterSet)
    (p : Word × LetterSet) :
    keeps game found contra p = true ↔
      (p.2 ∩ found).card = found.card ∧ (p.2 ∩ contra).card = 0 ∧
        matchesBoard game p.1 = true := by
  simp [keeps, Bool.and_eq_true, and_assoc]

theorem matchesBoard_play (guess secret : Word) :
    matchesBoard (play_wordle guess secret).1 secret = true := by
  show matchesBoard (List.zipWith _ secret guess) secret = true
  induction secret generalizing guess with
  | nil => rfl
  | cons s ss ih =>
    cases guess with
    | nil => rfl
    | cons g gs =>
      show matchesBoard ((if s = g then some g else none) :: _) (s :: ss) = true
      by_cases h : s = g
      · subst h
        simp only [if_pos rfl]
        show (s == s && matchesBoard _ ss) = true
        simp [ih]
      · simp only [if_neg h]
        exact ih gs

/-- C1: if a candidate pool contains the secret word (paired with its
distinct-letter set) then, for any guess, the secret survives eliminate when
fed the feedback that play_wordle produces for that guess against the secret
(board, found, and contra = distinct letters of the guess minus found); stated
as in the spec under the precondition that the secret has no repeated
letters. -/
theorem eliminate_preserves_secret (pool : Pool) (guess secret : Word)
    (hnodup : secret.Nodup)
    (hmem : (secret, distinctLetters secret) ∈ pool) :
    (secret, distinctLetters secret) ∈
      eliminate pool (play_wordle guess secret).1 (play_wordle guess secret).2
        (distinctLetters guess \ (play_wordle guess secret).2) := by
  rw [eliminate, List.mem_filter]
  refine ⟨hmem, ?_⟩
  rw [keeps_eq_true]
  refine ⟨?_, ?_, matchesBoard_play guess secret⟩
  · show (distinctLetters secret ∩ (distinctLetters guess ∩ distinctLetters secret)).card
        = (distinctLetters guess ∩ distinctLetters secret).card
    congr 1
    ext c
    simp only [Finset.mem_inter]
    tauto
  · show (distinctLetters secret ∩
        (distinctLetters guess \ (distinctLetters guess ∩ distinctLetters secret))).card = 0
    rw [Finset.card_eq_zero]
    ext c
    simp only [Finset.mem_inter, Finset.mem_sdiff, Finset.not_mem_empty, iff_false]
    tauto

/-- Witness for C1 at a concrete pool, guess and secret. -/
theorem eliminate_preserves_secret_witness :
    (['c','d'], distinctLetters ['c','d']) ∈
      eliminate [(['c','d'], distinctLetters ['c','d'])]
        (play_wordle ['a','b'] ['c','d']).1 (play_wordle ['a','b'] ['c','d']).2
        (distinctLetters ['a','b'] \ (play_wordle ['a','b'] ['c','d']).2) :=
  eliminate_preserves_secret [(['c','d'], distinctLetters ['c','d'])]
    ['a','b'] ['c','d'] (by decide) (by decide)

/-- C2: eliminate keeps exactly the pool entries whose letter set contains
every found letter and no contra letter, and whose word agrees with every
filled board slot, in order; on the Scenario D pool with board
"_i___", found containing only i, and contra the distinct letters of cigar
minus found, the result is exactly the entry for siste. -/
theorem eliminate_spec :
    (∀ (pool : Pool) (game : Board) (found contra : LetterSet)
        (w : Word) (s : LetterSet),
      ((w, s) ∈ eliminate pool game found contra ↔
        (w, s) ∈ pool ∧ (s ∩ found).card = found.card ∧ (s ∩ contra).card = 0 ∧
          ∀ i, i < game.length → i < w.length →
            ∀ c : Char, game[i]? = some (some c) → w[i]? = some c))
  ∧ eliminate poolD [none, some 'i', none, none, none] {'i'}
      (distinctLetters ['c','i','g','a','r'] \ {'i'}) =
      [(['s','i','s','t','e'], {'i','s','t','e'})] := by
  constructor
  · intro pool game found contra w s
    rw [eliminate, List.mem_filter, keeps_eq_true]
    simp only [matchesBoard_eq_true]
  · decide

/-- C3: for equal-length guess and secret, play_wordle returns a board of the
secret's length whose slot i holds the guessed letter exactly when it matches
the secret's letter at i, together with the set intersection of the guess's
and the secret's distinct letters; in particular guessing adieu against onset
gives the board with only slot 3 filled by e, and found containing only e. -/
theorem play_wordle_spec (guess secret : Word)
    (hlen : guess.length = secret.length) :
    (play_wordle guess secret).1.length = secret.length
  ∧ (∀ i (hs : i < secret.length) (hg : i < guess.length),
      (play_wordle guess secret).1[i]? =
        some (if guess[i] = secret[i] then some guess[i] else none))
  ∧ (play_wordle guess secret).2 = distinctLetters guess ∩ distinctLetters secret
  ∧ play_wordle ['a','d','i','e','u'] ['o','n','s','e','t']
      = ([none, none, none, some 'e', none], {'e'}) := by
  refine ⟨?_, ?_, rfl, by decide⟩
  · show (List.zipWith _ secret guess).length = secret.length
    rw [List.length_zipWith, hlen, Nat.min_self]
  · intro i hs hg
    show (List.zipWith _ secret guess)[i]? = _
    rw [List.getElem?_zipWith, List.getElem?_eq_getElem hs, List.getElem?_eq_getElem hg]
    show some (if secret[i] = guess[i] then some guess[i] else none)
        = some (if guess[i] = secret[i] then some guess[i] else none)
    by_cases h : guess[i] = secret[i]
    · rw [if_pos h, if_pos h.symm]
    · rw [if_neg (fun hx => h hx.symm), if_neg h]

/-- Witness for C3 at the equal-length pair adieu and onset. -/
theorem play_wordle_spec_witness :
    (play_wordle ['a','d','i','e','u'] ['o','n','s','e','t']).1.length
        = (['o','n','s','e','t'] : Word).length
  ∧ (∀ i (hs : i < (['o','n','s','e','t'] : Word).length)
        (hg : i < (['a','d','i','e','u'] : Word).length),
      (play_wordle ['a','d','i','e','u'] ['o','n','s','e','t']).1[i]? =
        some (if (['a','d','i','e','u'] : Word)[i] = (['o','n','s','e','t'] : Word)[i]
          then some (['a','d','i','e','u'] : Word)[i] else none))
  ∧ (play_wordle ['a','d','i','e','u'] ['o','n','s','e','t']).2
      = distinctLetters ['a','d','i','e','u'] ∩ distinctLetters ['o','n','s','e','t']
  ∧ play_wordle ['a','d','i','e','u'] ['o','n','s','e','t']
      = ([none, none, none, some 'e', none], {'e'}) :=
  play_wordle_spec ['a','d','i','e','u'] ['o','n','s','e','t'] rfl

/-- C6: the frequency-table argument of the bucketizer has no effect on its
output, for either letter class, because the tie-break scorer reads the global
vowel table rather than its parameter; likewise break_ties itself ignores its
usage argument. -/
theorem feature_bucket_usage_irrelevant (gUV u1 u2 : Table) (cands : Pool)
    (has_vowels : Bool) :
    feature_bucket gUV cands u1 has_vowels = feature_bucket gUV cands u2 has_vowels
  ∧ ∀ buckets : Buckets, break_ties gUV buckets u1 = break_ties gUV buckets u2 :=
  ⟨rfl, fun _ => rfl⟩

/-- C7: eliminate returns a sublist of its input pool, hence never grows it
and never introduces a word, and folding any sequence of feedback
applications over a pool keeps its size non-increasing. -/
theorem eliminate_monotone (pool : Pool) (game : Board)
    (found contra : LetterSet) :
    List.Sublist (eliminate pool game found contra) pool
  ∧ (eliminate pool game found contra).length ≤ pool.length
  ∧ List.Sublist ((eliminate pool game found contra).map Prod.fst)
      (pool.map Prod.fst)
  ∧ ∀ fbs : List (Board × LetterSet × LetterSet),
      (fbs.foldl eliminateStep pool).length ≤ pool.length := by
  refine ⟨List.filter_sublist pool, List.length_filter_le _ pool,
    List.Sublist.map Prod.fst (List.filter_sublist pool), ?_⟩
  intro fbs
  induction fbs generalizing pool with
  | nil => exact Nat.le_refl _
  | cons fb rest ih =>
    exact Nat.le_trans (ih (eliminateStep pool fb)) (List.length_filter_le _ pool)

/-- C9 counterexample: on the length-4 guess adie against the length-5 secret
onset, play_wordle returns a normal feedback value (with the board truncated
to length 4 by zip) instead of raising any length error. -/
theorem play_wordle_no_length_error :
    play_wordle ['a','d','i','e'] ['o','n','s','e','t']
      = ([none, none, none, some 'e'], {'e'}) := by decide

/-- C9 amended: play_wordle has no failure mode at all; for any guess and
secret, of equal length or not, it returns a feedback whose board is the
position-wise comparison truncated to the shorter length and whose found set
is the intersection of the two distinct-letter sets. -/
theorem play_wordle_total (guess secret : Word) :
    (play_wordle guess secret).1.length = min secret.length guess.length
  ∧ (play_wordle guess secret).2
      = distinctLetters guess ∩ distinctLetters secret :=
  ⟨List.length_zipWith _ secret guess, rfl⟩

/- Lemmas about the tie-break rank weight and the stable descending sort. -/

theorem findIdx_of_nodup {α : Type} [DecidableEq α] (l : List α) (hnd : l.Nodup)
    (i : Nat) (a : α) (h : l[i]? = some a) :
    ∀ j, l.findIdx? (fun x => x = a) j = some (i + j) := by
  induction l generalizing i with
  | nil => simp at h
  | cons x xs ih =>
    intro j
    cases i with
    | zero =>
      simp only [List.getElem?_cons_zero, Option.some.injEq] at h
      subst h
      simp [List.findIdx?_cons]
    | succ n =>
      simp only [List.getElem?_cons_succ] at h
      have hmem : a ∈ xs := by
        rcases List.getElem?_eq_some.mp h with ⟨hb, rfl⟩
        exact List.getElem_mem hb
      have hne : x ≠ a := fun hx => (List.nodup_cons.mp hnd).1 (hx ▸ hmem)
      rw [List.findIdx?_cons, if_neg (by simp [hne]), ih (List.nodup_cons.mp hnd).2 n h]
      exact congrArg some (by omega)

theorem uvRank_reverse (tbl : Table) (hnd : (tbl.map Prod.fst).Nodup)
    (i : Nat) (p : Char × Nat) (h : tbl.reverse[i]? = some p) :
    uvRank tbl p.1 = i := by
  have hnd2 : (tbl.reverse.map Prod.fst).Nodup := by
    rw [List.map_reverse]
    exact List.nodup_reverse.mpr hnd
  have hget : (tbl.reverse.map Prod.fst)[i]? = some p.1 := by
    rw [List.getElem?_map, h]
    rfl
  rw [uvRank, findIdx_of_nodup _ hnd2 i p.1 hget 0]
  rfl

theorem uvRank_not_mem (tbl : Table) (c : Char) (h : c ∉ tbl.map Prod.fst) :
    uvRank tbl c = 0 := by
  rw [uvRank, List.findIdx?_eq_none_iff.mpr, Option.getD_none]
  intro x hx
  simp only [decide_eq_false_iff_not]
  rintro rfl
  rw [List.map_reverse, List.mem_reverse] at hx
  exact h hx

theorem insertDesc_perm {α : Type} (sc : α → Nat) (a : α) (l : List α) :
    (insertDesc sc a l).Perm (a :: l) := by
  induction l with
  | nil => exact List.Perm.refl _
  | cons b m ih =>
    rw [insertDesc]
    by_cases h : sc a < sc b
    · rw [if_pos h]
      exact ((ih.cons b).trans (List.Perm.swap a b m)).symm.symm
    · rw [if_neg h]

theorem sortDesc_perm {α : Type} (sc : α → Nat) (l : List α) :
    (sortDesc sc l).Perm l := by
  induction l with
  | nil => exact List.Perm.refl _
  | cons a m ih =>
    show (insertDesc sc a (sortDesc sc m)).Perm (a :: m)
    exact (insertDesc_perm sc a (sortDesc sc m)).trans (ih.cons a)

theorem insertDesc_pairwise {α : Type} (sc : α → Nat) (a : α) (l : List α)
    (h : l.Pairwise (fun x y => sc y ≤ sc x)) :
    (insertDesc sc a l).Pairwise (fun x y => sc y ≤ sc x) := by
  induction l with
  | nil => simp [insertDesc]
  | cons b m ih =>
    rw [insertDesc]
    rcases List.pairwise_cons.mp h with ⟨hb, hm⟩
    by_cases hab : sc a < sc b
    · rw [if_pos hab]
      refine List.pairwise_cons.mpr ⟨?_, ih hm⟩
      intro x hx
      have hx2 := (insertDesc_perm sc a m).mem_iff.mp hx
      rcases List.mem_cons.mp hx2 with rfl | hxm
      · exact Nat.le_of_lt hab
      · exact hb x hxm
    · rw [if_neg hab]
      refine List.pairwise_cons.mpr ⟨?_, h⟩
      intro x hx
      rcases List.mem_cons.mp hx with rfl | hxm
      · exact Nat.le_of_not_lt hab
      · exact Nat.le_trans (hb x hxm) (Nat.le_of_not_lt hab)

theorem sortDesc_pairwise {α : Type} (sc : α → Nat) (l : List α) :
    (sortDesc sc l).Pairwise (fun x y => sc y ≤ sc x) := by
  induction l with
  | nil => simp [sortDesc]
  | cons a m ih => exact insertDesc_pairwise sc a (sortDesc sc m) ih

theorem insertDesc_filter {α : Type} (sc : α → Nat) (a : α) (l : List α)
    (n : Nat) :
    (insertDesc sc a l).filter (fun x => sc x == n)
      = (a :: l).filter (fun x => sc x == n) := by
  induction l with
  | nil => rfl
  | cons b m ih =>
    rw [insertDesc]
    by_cases hab : sc a < sc b
    · rw [if_pos hab, List.filter_cons, ih]
      by_cases hbn : sc b = n
      · have han : ¬ sc a = n := by omega
        simp [List.filter_cons, hbn, han]
      · by_cases han : sc a = n
        · simp [List.filter_cons, hbn, han]
        · simp [List.filter_cons, hbn, han]
    · rw [if_neg hab]

theorem sortDesc_filter {α : Type} (sc : α → Nat) (l : List α) (n : Nat) :
    (sortDesc sc l).filter (fun x => sc x == n)
      = l.filter (fun x => sc x == n) := by
  induction l with
  | nil => rfl
  | cons a m ih =>
    show (insertDesc sc a (sortDesc sc m)).filter _ = _
    rw [insertDesc_filter, List.filter_cons, List.filter_cons, ih]

/-- C5: for a frequency table with distinct letters (a Python dict), the
tie-break step gives the letter at position i of the reversed (ascending)
traversal the rank weight i — so the most frequent letter gets the largest
weight and the least frequent gets 0 — gives letters absent from the table
weight 0, and replaces every bucket list by a permutation of itself that is
sorted descending by the per-occurrence sum of rank weights and, score class
by score class, keeps the original relative order of the words. -/
theorem break_ties_spec (tbl usage : Table) (buckets : Buckets)
    (hnd : (tbl.map Prod.fst).Nodup) :
    (∀ (i : Nat) (p : Char × Nat), tbl.reverse[i]? = some p → uvRank tbl p.1 = i)
  ∧ (∀ c : Char, c ∉ tbl.map Prod.fst → uvRank tbl c = 0)
  ∧ (break_ties tbl buckets usage).length = buckets.length
  ∧ ∀ (i : Nat) (e1 e2 : Nat × List Word),
      (break_ties tbl buckets usage)[i]? = some e1 → buckets[i]? = some e2 →
        e1.1 = e2.1
      ∧ e1.2.Perm e2.2
      ∧ e1.2.Pairwise (fun a b => tieScore tbl b ≤ tieScore tbl a)
      ∧ ∀ n : Nat, e1.2.filter (fun w => tieScore tbl w == n)
          = e2.2.filter (fun w => tieScore tbl w == n) := by
  refine ⟨uvRank_reverse tbl hnd, uvRank_not_mem tbl, List.length_map _ _, ?_⟩
  intro i e1 e2 h1 h2
  rw [break_ties, List.getElem?_map, h2] at h1
  simp only [Option.map_some', Option.some.injEq] at h1
  subst h1
  exact ⟨rfl, sortDesc_perm _ _, sortDesc_pairwise _ _, sortDesc_filter _ _⟩

/-- Witness for C5 at a concrete two-letter table and one concrete bucket. -/
theorem break_ties_spec_witness :
    ((([('e', 2), ('a', 1)] : Table).map Prod.fst).Nodup)
  ∧ ((∀ (i : Nat) (p : Char × Nat), ([('e', 2), ('a', 1)] : Table).reverse[i]? = some p →
        uvRank [('e', 2), ('a', 1)] p.1 = i)
  ∧ (∀ c : Char, c ∉ ([('e', 2), ('a', 1)] : Table).map Prod.fst →
        uvRank [('e', 2), ('a', 1)] c = 0)
  ∧ (break_ties [('e', 2), ('a', 1)] [(1, [['b','a'], ['b','e']])] []).length
      = ([(1, [['b','a'], ['b','e']])] : Buckets).length
  ∧ ∀ (i : Nat) (e1 e2 : Nat × List Word),
      (break_ties [('e', 2), ('a', 1)] [(1, [['b','a'], ['b','e']])] [])[i]? = some e1 →
      ([(1, [['b','a'], ['b','e']])] : Buckets)[i]? = some e2 →
        e1.1 = e2.1
      ∧ e1.2.Perm e2.2
      ∧ e1.2.Pairwise (fun a b =>
          tieScore [('e', 2), ('a', 1)] b ≤ tieScore [('e', 2), ('a', 1)] a)
      ∧ ∀ n : Nat, e1.2.filter (fun w => tieScore [('e', 2), ('a', 1)] w == n)
          = e2.2.filter (fun w => tieScore [('e', 2), ('a', 1)] w == n)) :=
  ⟨by decide, break_ties_spec [('e', 2), ('a', 1)] [] [(1, [['b','a'], ['b','e']])]
    (by decide)⟩

/- Lemmas about the bucket dict built by feature_bucket. -/

theorem bucketsGet_bucketsAdd_self (k : Nat) (w : Word) (bs : Buckets) :
    bucketsGet k (bucketsAdd k w bs) = bucketsGet k bs ++ [w] := by
  induction bs with
  | nil => simp [bucketsAdd, bucketsGet]
  | cons e rest ih =>
    rcases e with ⟨k1, ws⟩
    rw [bucketsAdd]
    by_cases h : k1 = k
    · rw [if_pos h]
      rw [bucketsGet, if_pos h, bucketsGet, if_pos h]
    · rw [if_neg h]
      rw [bucketsGet, if_neg h, bucketsGet, if_neg h, ih]

theorem bucketsGet_bucketsAdd_ne (k1 k : Nat) (w : Word) (bs : Buckets)
    (h : k1 ≠ k) : bucketsGet k1 (bucketsAdd k w bs) = bucketsGet k1 bs := by
  induction bs with
  | nil =>
    simp only [bucketsAdd, bucketsGet]
    rw [if_neg (by omega : ¬ (k = k1))]
  | cons e rest ih =>
    rcases e with ⟨k2, ws⟩
    simp only [bucketsAdd]
    by_cases h2 : k2 = k
    · rw [if_pos h2]
      simp only [bucketsGet]
      rw [if_neg (by omega : ¬ (k2 = k1)), if_neg (by omega : ¬ (k2 = k1))]
    · rw [if_neg h2]
      simp only [bucketsGet]
      by_cases h3 : k2 = k1
      · rw [if_pos h3, if_pos h3]
      · rw [if_neg h3, if_neg h3, ih]

theorem keys_bucketsAdd (k : Nat) (w : Word) (bs : Buckets) :
    (bucketsAdd k w bs).map Prod.fst =
      if k ∈ bs.map Prod.fst then bs.map Prod.fst
      else bs.map Prod.fst ++ [k] := by
  induction bs with
  | nil => simp [bucketsAdd]
  | cons e rest ih =>
    rcases e with ⟨k1, ws⟩
    rw [bucketsAdd]
    by_cases h : k1 = k
    · rw [if_pos h]
      simp [h]
    · rw [if_neg h]
      simp only [List.map_cons, List.mem_cons]
      rw [ih]
      by_cases h2 : k ∈ rest.map Prod.fst
      · rw [if_pos h2, if_pos (Or.inr h2)]
      · rw [if_neg h2, if_neg (by rintro (h3 | h3); exact h h3.symm; exact h2 h3)]
        rfl

theorem nodup_keys_bucketsAdd (k : Nat) (w : Word) (bs : Buckets)
    (h : (bs.map Prod.fst).Nodup) :
    ((bucketsAdd k w bs).map Prod.fst).Nodup := by
  rw [keys_bucketsAdd]
  by_cases h2 : k ∈ bs.map Prod.fst
  · rwa [if_pos h2]
  · rw [if_neg h2]
    simp [List.nodup_append, h, h2]

theorem nonempty_bucketsAdd (k : Nat) (w : Word) (bs : Buckets)
    (h : ∀ e ∈ bs, e.2 ≠ []) :
    ∀ e ∈ bucketsAdd k w bs, e.2 ≠ [] := by
  induction bs with
  | nil =>
    intro e he
    rcases List.mem_cons.mp he with rfl | h2
    · simp
    · simp at h2
  | cons e0 rest ih =>
    rcases e0 with ⟨k1, ws⟩
    rw [bucketsAdd]
    by_cases h1 : k1 = k
    · rw [if_pos h1]
      intro e he
      rcases List.mem_cons.mp he with rfl | h2
      · simp
      · exact h e (List.mem_cons_of_mem _ h2)
    · rw [if_neg h1]
      intro e he
      rcases List.mem_cons.mp he with rfl | h2
      · exact h _ (List.mem_cons_self _ _)
      · exact ih (fun x hx => h x (List.mem_cons_of_mem _ hx)) e h2

theorem bucketsGet_foldl (cset : LetterSet) (cands : Pool) :
    ∀ (bs : Buckets) (k : Nat),
      bucketsGet k (cands.foldl (fun b p => bucketsAdd (p.2 ∩ cset).card p.1 b) bs)
        = bucketsGet k bs
          ++ (cands.filter (fun p => (p.2 ∩ cset).card == k)).map Prod.fst := by
  induction cands with
  | nil => intro bs k; simp
  | cons p rest ih =>
    intro bs k
    rw [List.foldl_cons, ih, List.filter_cons]
    by_cases h : (p.2 ∩ cset).card = k
    · rw [if_pos (by simpa using h), h, bucketsGet_bucketsAdd_self]
      simp
    · rw [if_neg (by simpa using h), bucketsGet_bucketsAdd_ne _ _ _ _ (by omega)]

theorem bucketsGet_bucketize (cset : LetterSet) (cands : Pool) (k : Nat) :
    bucketsGet k (bucketize cset cands)
      = (cands.filter (fun p => (p.2 ∩ cset).card == k)).map Prod.fst := by
  rw [bucketize, bucketsGet_foldl]
  rfl

theorem keys_foldl_mem (cset : LetterSet) (cands : Pool) :
    ∀ (bs : Buckets) (k : Nat),
      k ∈ (cands.foldl (fun b p => bucketsAdd (p.2 ∩ cset).card p.1 b) bs).map Prod.fst
        ↔ k ∈ bs.map Prod.fst ∨ ∃ p ∈ cands, (p.2 ∩ cset).card = k := by
  induction cands with
  | nil => intro bs k; simp
  | cons p rest ih =>
    intro bs k
    rw [List.foldl_cons, ih, keys_bucketsAdd]
    by_cases h : (p.2 ∩ cset).card ∈ bs.map Prod.fst
    · rw [if_pos h]
      constructor
      · rintro (h2 | h2)
        · exact Or.inl h2
        · exact Or.inr ⟨_, List.mem_cons_of_mem p (by exact h2.choose_spec.1),
            h2.choose_spec.2⟩
      · rintro (h2 | ⟨q, hq, hqk⟩)
        · exact Or.inl h2
        · rcases List.mem_cons.mp hq with rfl | hq2
          · exact Or.inl (hqk ▸ h)
          · exact Or.inr ⟨q, hq2, hqk⟩
    · rw [if_neg h]
      simp only [List.mem_append, List.mem_singleton, List.exists_mem_cons_iff]
      constructor
      · rintro ((h2 | h2) | h2)
        · exact Or.inl h2
        · exact Or.inr (Or.inl h2.symm)
        · exact Or.inr (Or.inr h2)
      · rintro (h2 | (h2 | h2))
        · exact Or.inl (Or.inl h2)
        · exact Or.inl (Or.inr h2.symm)
        · exact Or.inr h2

theorem keys_bucketize_mem (cset : LetterSet) (cands : Pool) (k : Nat) :
    k ∈ (bucketize cset cands).map Prod.fst
      ↔ ∃ p ∈ cands, (p.2 ∩ cset).card = k := by
  rw [bucketize, keys_foldl_mem]
  simp

theorem nodup_keys_bucketize (cset : LetterSet) (cands : Pool) :
    ((bucketize cset cands).map Prod.fst).Nodup := by
  rw [bucketize]
  have h : ∀ (bs : Buckets), (bs.map Prod.fst).Nodup →
      ((cands.foldl (fun b p => bucketsAdd (p.2 ∩ cset).card p.1 b) bs).map
        Prod.fst).Nodup := by
    induction cands with
    | nil => intro bs hbs; exact hbs
    | cons p rest ih =>
      intro bs hbs
      rw [List.foldl_cons]
      exact ih _ (nodup_keys_bucketsAdd _ _ _ hbs)
  exact h [] (by simp)

theorem nonempty_bucketize (cset : LetterSet) (cands : Pool) :
    ∀ e ∈ bucketize cset cands, e.2 ≠ [] := by
  rw [bucketize]
  have h : ∀ (bs : Buckets), (∀ e ∈ bs, e.2 ≠ []) →
      ∀ e ∈ cands.foldl (fun b p => bucketsAdd (p.2 ∩ cset).card p.1 b) bs,
        e.2 ≠ [] := by
    induction cands with
    | nil => intro bs hbs; exact hbs
    | cons p rest ih =>
      intro bs hbs
      rw [List.foldl_cons]
      exact ih _ (nonempty_bucketsAdd _ _ _ hbs)
  exact h [] (by simp)

theorem bucketsGet_break_ties (gUV u : Table) (bs : Buckets) (k : Nat) :
    bucketsGet k (break_ties gUV bs u)
      = sortDesc (tieScore gUV) (bucketsGet k bs) := by
  induction bs with
  | nil => rfl
  | cons e rest ih =>
    rcases e with ⟨k1, ws⟩
    simp only [break_ties, List.map_cons] at ih ⊢
    simp only [bucketsGet]
    by_cases h : k1 = k
    · rw [if_pos h, if_pos h]
    · rw [if_neg h, if_neg h]
      exact ih

theorem keys_break_ties (gUV u : Table) (bs : Buckets) :
    (break_ties gUV bs u).map Prod.fst = bs.map Prod.fst := by
  induction bs with
  | nil => rfl
  | cons e rest ih =>
    simp only [break_ties, List.map_cons] at ih ⊢
    rw [ih]

theorem pool_letterset_unique (cands : Pool) :
    (cands.map Prod.fst).Nodup →
      ∀ (w : Word) (s1 s2 : LetterSet),
        (w, s1) ∈ cands → (w, s2) ∈ cands → s1 = s2 := by
  induction cands with
  | nil =>
    intro _ w s1 s2 h1
    simp at h1
  | cons p rest ih =>
    intro hnd w s1 s2 h1 h2
    rcases p with ⟨pw, ps⟩
    rw [List.map_cons, List.nodup_cons] at hnd
    rcases List.mem_cons.mp h1 with he1 | h1m
    · rcases List.mem_cons.mp h2 with he2 | h2m
      · rw [Prod.mk.injEq] at he1 he2
        rw [he1.2, he2.2]
      · rw [Prod.mk.injEq] at he1
        exact absurd (List.mem_map.mpr ⟨(w, s2), h2m, he1.1⟩) hnd.1
    · rcases List.mem_cons.mp h2 with he2 | h2m
      · rw [Prod.mk.injEq] at he2
        exact absurd (List.mem_map.mpr ⟨(w, s1), h1m, he2.1⟩) hnd.1
      · exact ih hnd.2 w s1 s2 h1m h2m

theorem mem_keys_bucketsGet_ne_nil (bs : Buckets) (k : Nat)
    (hne : ∀ e ∈ bs, e.2 ≠ []) (hk : k ∈ bs.map Prod.fst) :
    bucketsGet k bs ≠ [] := by
  induction bs with
  | nil => simp at hk
  | cons e rest ih =>
    rcases e with ⟨k1, ws⟩
    simp only [bucketsGet]
    by_cases h : k1 = k
    · rw [if_pos h]
      exact hne (k1, ws) (List.mem_cons_self _ _)
    · rw [if_neg h]
      rw [List.map_cons] at hk
      rcases List.mem_cons.mp hk with h2 | h2
      · exact absurd h2.symm h
      · exact ih (fun x hx => hne x (List.mem_cons_of_mem _ hx)) h2

theorem bucketsGet_mem_entry (bs : Buckets) (k : Nat) :
    bucketsGet k bs ≠ [] → ∃ e ∈ bs, e.1 = k ∧ e.2 = bucketsGet k bs := by
  induction bs with
  | nil =>
    intro h
    exact absurd rfl h
  | cons e rest ih =>
    intro h
    rcases e with ⟨k1, ws⟩
    simp only [bucketsGet] at h ⊢
    by_cases h1 : k1 = k
    · exact ⟨(k1, ws), List.mem_cons_self _ _, h1, by rw [if_pos h1]⟩
    · rw [if_neg h1] at h ⊢
      rcases ih h with ⟨e, he, hek, hev⟩
      exact ⟨e, List.mem_cons_of_mem _ he, hek, hev⟩

theorem entry_bucketsGet (bs : Buckets) :
    (bs.map Prod.fst).Nodup → ∀ e ∈ bs, bucketsGet e.1 bs = e.2 := by
  induction bs with
  | nil =>
    intro _ e he
    simp at he
  | cons e0 rest ih =>
    intro hnd e he
    rcases e0 with ⟨k1, ws⟩
    rw [List.map_cons, List.nodup_cons] at hnd
    simp only [bucketsGet]
    rcases List.mem_cons.mp he with rfl | hem
    · rw [if_pos rfl]
    · rw [if_neg (fun hx => hnd.1
        (by rw [hx]; exact List.mem_map.mpr ⟨e, hem, rfl⟩))]
      exact ih hnd.2 e hem

theorem sortDesc_ne_nil {α : Type} (sc : α → Nat) (l : List α) (h : l ≠ []) :
    sortDesc sc l ≠ [] := by
  intro hx
  have hp := sortDesc_perm sc l
  rw [hx] at hp
  exact h hp.symm.eq_nil

theorem choose_guess_feature_bucket (gUV usage : Table) (cands : Pool)
    (has_vowels : Bool) (hne : cands ≠ []) :
    ∃ w, choose_guess (feature_bucket gUV cands usage has_vowels) = some w
      ∧ w ∈ cands.map Prod.fst := by
  rcases List.exists_cons_of_ne_nil hne with ⟨p, rest, rfl⟩
  have hkey : (p.2 ∩ (if has_vowels then VOWELS else CONSONANTS)).card ∈
      (feature_bucket gUV (p :: rest) usage has_vowels).map Prod.fst := by
    rw [feature_bucket, keys_break_ties, keys_bucketize_mem]
    exact ⟨p, List.mem_cons_self _ _, rfl⟩
  cases hmax : ((feature_bucket gUV (p :: rest) usage has_vowels).map Prod.fst).max? with
  | none =>
    rw [List.max?_eq_none_iff] at hmax
    rw [hmax] at hkey
    simp at hkey
  | some m =>
    have hm : m ∈ (feature_bucket gUV (p :: rest) usage has_vowels).map Prod.fst :=
      List.max?_mem (fun a b => max_choice a b) hmax
    have hm2 : m ∈ (bucketize (if has_vowels then VOWELS else CONSONANTS)
        (p :: rest)).map Prod.fst := by
      rwa [feature_bucket, keys_break_ties] at hm
    have hgne : bucketsGet m (bucketize
        (if has_vowels then VOWELS else CONSONANTS) (p :: rest)) ≠ [] :=
      mem_keys_bucketsGet_ne_nil _ m (nonempty_bucketize _ _) hm2
    have hsne : bucketsGet m (feature_bucket gUV (p :: rest) usage has_vowels) ≠ [] := by
      rw [feature_bucket, bucketsGet_break_ties]
      exact sortDesc_ne_nil _ _ hgne
    rcases List.exists_cons_of_ne_nil hsne with ⟨w, ws, hw⟩
    refine ⟨w, ?_, ?_⟩
    · rw [choose_guess, hmax]
      show (bucketsGet m (feature_bucket gUV (p :: rest) usage has_vowels)).head?
          = some w
      rw [hw]
      rfl
    · have hwmem : w ∈ bucketsGet m (bucketize
          (if has_vowels then VOWELS else CONSONANTS) (p :: rest)) := by
        have : w ∈ bucketsGet m (feature_bucket gUV (p :: rest) usage has_vowels) := by
          rw [hw]
          exact List.mem_cons_self _ _
        rw [feature_bucket, bucketsGet_break_ties] at this
        exact (sortDesc_perm _ _).mem_iff.mp this
      rw [bucketsGet_bucketize] at hwmem
      rcases List.mem_map.mp hwmem with ⟨q, hq, rfl⟩
      exact List.mem_map.mpr ⟨q, List.mem_of_mem_filter hq, rfl⟩

/-- C10: for a pool with distinct words (a Python dict), the bucketizer
partitions the pool: each word appears in the bucket keyed by the overlap of
its letter set with the chosen class and in no other bucket, every bucket in
the result is non-empty, a word appears in some bucket exactly when it is a
pool word, and on a non-empty pool the guess selector returns a word of the
pool. -/
theorem feature_bucket_partition (gUV usage : Table) (cands : Pool)
    (has_vowels : Bool) (hnd : (cands.map Prod.fst).Nodup) :
    (∀ p ∈ cands,
        p.1 ∈ bucketsGet ((p.2 ∩ (if has_vowels then VOWELS else CONSONANTS)).card)
            (feature_bucket gUV cands usage has_vowels)
      ∧ ∀ k : Nat, p.1 ∈ bucketsGet k (feature_bucket gUV cands usage has_vowels) →
          k = (p.2 ∩ (if has_vowels then VOWELS else CONSONANTS)).card)
  ∧ (∀ e ∈ feature_bucket gUV cands usage has_vowels, e.2 ≠ [])
  ∧ (∀ w : Word, (∃ e ∈ feature_bucket gUV cands usage has_vowels, w ∈ e.2)
      ↔ w ∈ cands.map Prod.fst)
  ∧ (cands ≠ [] →
      ∃ w, choose_guess (feature_bucket gUV cands usage has_vowels) = some w
        ∧ w ∈ cands.map Prod.fst) := by
  refine ⟨?_, ?_, ?_, choose_guess_feature_bucket gUV usage cands has_vowels⟩
  · intro p hp
    constructor
    · rw [feature_bucket, bucketsGet_break_ties]
      rw [(sortDesc_perm _ _).mem_iff, bucketsGet_bucketize]
      refine List.mem_map.mpr ⟨p, List.mem_filter.mpr ⟨hp, ?_⟩, rfl⟩
      exact beq_self_eq_true _
    · intro k hk
      rw [feature_bucket, bucketsGet_break_ties,
        (sortDesc_perm _ _).mem_iff, bucketsGet_bucketize] at hk
      rcases List.mem_map.mp hk with ⟨q, hq, hq1⟩
      have hq2 := List.mem_filter.mp hq
      have hcard : (q.2 ∩ (if has_vowels then VOWELS else CONSONANTS)).card = k :=
        by simpa using hq2.2
      have hqs : q.2 = p.2 := by
        rcases q with ⟨qw, qs⟩
        rcases p with ⟨pw, ps⟩
        simp only at hq1
        subst hq1
        exact pool_letterset_unique cands hnd qw qs ps hq2.1 hp
      rw [← hcard, hqs]
  · intro e he
    rw [feature_bucket, break_ties] at he
    rcases List.mem_map.mp he with ⟨q, hq, rfl⟩
    exact sortDesc_ne_nil _ _ (nonempty_bucketize _ _ q hq)
  · intro w
    constructor
    · rintro ⟨e, he, hw⟩
      have hnk : ((feature_bucket gUV cands usage has_vowels).map Prod.fst).Nodup := by
        rw [feature_bucket, keys_break_ties]
        exact nodup_keys_bucketize _ _
      have hg := entry_bucketsGet _ hnk e he
      have hw1 : w ∈ bucketsGet e.1 (feature_bucket gUV cands usage has_vowels) := by
        rw [hg]
        exact hw
      rw [feature_bucket, bucketsGet_break_ties] at hw1
      have hw2 := (sortDesc_perm _ _).mem_iff.mp hw1
      rw [bucketsGet_bucketize] at hw2
      rcases List.mem_map.mp hw2 with ⟨q, hq, rfl⟩
      exact List.mem_map.mpr ⟨q, List.mem_of_mem_filter hq, rfl⟩
    · intro hw
      rcases List.mem_map.mp hw with ⟨q, hq, rfl⟩
      have hw2 : q.1 ∈ bucketsGet
          ((q.2 ∩ (if has_vowels then VOWELS else CONSONANTS)).card)
          (feature_bucket gUV cands usage has_vowels) := by
        rw [feature_bucket, bucketsGet_break_ties, (sortDesc_perm _ _).mem_iff,
          bucketsGet_bucketize]
        exact List.mem_map.mpr ⟨q, List.mem_filter.mpr ⟨hq, beq_self_eq_true _⟩, rfl⟩
      have hne : bucketsGet ((q.2 ∩ (if has_vowels then VOWELS else CONSONANTS)).card)
          (feature_bucket gUV cands usage has_vowels) ≠ [] := by
        intro hx
        rw [hx] at hw2
        simp at hw2
      rcases bucketsGet_mem_entry _ _ hne with ⟨e, he, hek, hev⟩
      exact ⟨e, he, by rw [hev]; exact hw2⟩

/-- Witness for C10 at a concrete one-word pool. -/
theorem feature_bucket_partition_witness :
    ((([(['a'], {'a'})] : Pool).map Prod.fst).Nodup)
  ∧ ((∀ p ∈ ([(['a'], {'a'})] : Pool),
        p.1 ∈ bucketsGet ((p.2 ∩ (if true then VOWELS else CONSONANTS)).card)
            (feature_bucket [] [(['a'], {'a'})] [] true)
      ∧ ∀ k : Nat, p.1 ∈ bucketsGet k (feature_bucket [] [(['a'], {'a'})] [] true) →
          k = (p.2 ∩ (if true then VOWELS else CONSONANTS)).card)
  ∧ (∀ e ∈ feature_bucket [] [(['a'], {'a'})] [] true, e.2 ≠ [])
  ∧ (∀ w : Word, (∃ e ∈ feature_bucket [] [(['a'], {'a'})] [] true, w ∈ e.2)
      ↔ w ∈ ([(['a'], {'a'})] : Pool).map Prod.fst)
  ∧ (([(['a'], {'a'})] : Pool) ≠ [] →
      ∃ w, choose_guess (feature_bucket [] [(['a'], {'a'})] [] true) = some w
        ∧ w ∈ ([(['a'], {'a'})] : Pool).map Prod.fst)) :=
  ⟨by decide, feature_bucket_partition [] [] [(['a'], {'a'})] true (by decide)⟩

/-
A two-word dictionary for concrete solver runs: the pool pairs each word with
its distinct-letter set, and the tables are the vowel and consonant usage
tables of that dictionary.
-/
def smallPool : Pool := [(['a','b'], {'a','b'}), (['c','d'], {'c','d'})]

def smallUV : Table := [('a', 1)]

def smallUC : Table := [('b', 1), ('c', 1), ('d', 1)]

/-
The vowel-phase attempt of every loop iteration is odd (the loop starts at
attempt 1 and advances by 2), and each iteration logs its guesses at attempt
and attempt + 1 only when attempt is at most maxTries.  Hence no logged
attempt exceeds maxTries + 1, and when maxTries is even the consonant-phase
attempt cannot equal the odd number maxTries + 1, so no logged attempt
exceeds maxTries at all.
-/
theorem computeWordleAux_attempt_bound (gUV uvP : Table) (secret : Word)
    (maxTries : Nat) (fuel : Nat) :
    ∀ (cands : Pool) (attempt : Nat) (lastBoard : Option Board) (p : Nat × Word),
      p ∈ (computeWordleAux gUV uvP secret maxTries fuel cands attempt lastBoard).2 →
        attempt % 2 = 1 → attempt ≤ maxTries →
          p.1 ≤ maxTries + 1 ∧ (maxTries % 2 = 0 → p.1 ≤ maxTries) := by
  induction fuel with
  | zero =>
    intro cands attempt lastBoard p hp _ _
    cases lastBoard with
    | none => simp [computeWordleAux, wordleExit] at hp
    | some b => simp [computeWordleAux, wordleExit] at hp
  | succ fuel ih =>
    intro cands attempt lastBoard p hp hodd hle
    rw [computeWordleAux, if_pos hle] at hp
    split at hp
    · simp at hp
    · split at hp
      · simp only [List.mem_singleton] at hp
        subst hp
        show attempt ≤ maxTries + 1 ∧ (maxTries % 2 = 0 → attempt ≤ maxTries)
        omega
      · split at hp
        · simp only [List.mem_singleton] at hp
          subst hp
          show attempt ≤ maxTries + 1 ∧ (maxTries % 2 = 0 → attempt ≤ maxTries)
          omega
        · split at hp
          · simp only [List.mem_cons, List.not_mem_nil, or_false] at hp
            rcases hp with rfl | rfl
            · show attempt ≤ maxTries + 1 ∧ (maxTries % 2 = 0 → attempt ≤ maxTries)
              omega
            · show attempt + 1 ≤ maxTries + 1
                ∧ (maxTries % 2 = 0 → attempt + 1 ≤ maxTries)
              omega
          · simp only [List.mem_cons] at hp
            rcases hp with rfl | rfl | hp
            · show attempt ≤ maxTries + 1 ∧ (maxTries % 2 = 0 → attempt ≤ maxTries)
              omega
            · show attempt + 1 ≤ maxTries + 1
                ∧ (maxTries % 2 = 0 → attempt + 1 ≤ maxTries)
              omega
            · by_cases hle2 : attempt + 2 ≤ maxTries
              · exact ih _ _ _ p hp (by omega) hle2
              · cases fuel with
                | zero => simp [computeWordleAux, wordleExit] at hp
                | succ fuel2 =>
                  rw [computeWordleAux, if_neg hle2] at hp
                  simp [wordleExit] at hp

/-- C4 counterexample: on the two-word dictionary with secret cd and
maxTries = 1, the loop evaluates a consonant-phase guess at attempt 2,
which exceeds maxTries; the while condition is only checked before the
vowel phase, not between the two phases of one iteration. -/
theorem compute_wordle_attempt_exceeds :
    (2, ['c','d']) ∈ (compute_wordle smallUV smallPool ['c','d']
      smallUV smallUC 1).2
  ∧ ¬ (2 ≤ 1) := by decide

/-- C4 amended: the attempt number of an evaluated guess never exceeds
maxTries + 1, and when maxTries is even it never exceeds maxTries (the
vowel-phase guess of an iteration is evaluated only when its odd attempt is
at most maxTries, and the consonant-phase guess of the same iteration runs
unconditionally at the next, even, attempt number, so only for odd maxTries
can it land on maxTries + 1). -/
theorem compute_wordle_attempt_bound (gUV uvP ucP : Table) (cands : Pool)
    (secret : Word) (maxTries : Nat) (p : Nat × Word)
    (hp : p ∈ (compute_wordle gUV cands secret uvP ucP maxTries).2) :
    p.1 ≤ maxTries + 1 ∧ (maxTries % 2 = 0 → p.1 ≤ maxTries) := by
  rcases maxTries with _ | mt
  · rw [compute_wordle] at hp
    simp [computeWordleAux, wordleExit] at hp
  · exact computeWordleAux_attempt_bound gUV uvP secret (mt + 1) (mt + 2)
      cands 1 none p hp (by omega) (by omega)

/-- Witness for the amended C4 at the concrete two-word run. -/
theorem compute_wordle_attempt_bound_witness :
    ((1, ['a','b']) ∈ (compute_wordle smallUV smallPool ['c','d']
        smallUV smallUC 1).2)
  ∧ ((1, (['a','b'] : Word)).1 ≤ 1 + 1
      ∧ ((1 : Nat) % 2 = 0 → (1, (['a','b'] : Word)).1 ≤ 1)) :=
  ⟨by decide, compute_wordle_attempt_bound smallUV smallUV smallUC smallPool
    ['c','d'] 1 (1, ['a','b']) (by decide)⟩

theorem computeWordleAux_no_unbound (gUV uvP : Table) (secret : Word)
    (maxTries : Nat) (fuel : Nat) :
    ∀ (cands : Pool) (attempt : Nat) (b : Board),
      (computeWordleAux gUV uvP secret maxTries fuel cands attempt (some b)).1
        ≠ Except.error RunError.unboundBoard := by
  induction fuel with
  | zero =>
    intro cands attempt b
    simp [computeWordleAux, wordleExit]
  | succ fuel ih =>
    intro cands attempt b
    rw [computeWordleAux]
    by_cases hle : attempt ≤ maxTries
    · rw [if_pos hle]
      split
      · simp
      · split
        · simp
        · split
          · simp
          · split
            · simp
            · exact ih _ _ _
    · rw [if_neg hle]
      simp [wordleExit]

/-- C8 counterexample: with maxTries = 0 the loop body never runs and the
final result construction reads the never-assigned board variable, so the
run fails with an unbound-variable error, not with any configuration check;
no InvalidConfigurationError exists in the code. -/
theorem compute_wordle_zero_tries :
    compute_wordle smallUV smallPool ['c','d'] smallUV smallUC 0
      = (Except.error RunError.unboundBoard, []) := rfl

/-- C8 amended: for maxTries at most 0 (0 on Nat) the solver evaluates no
guess and fails by reading the unbound loop-local board variable (Python
UnboundLocalError); it performs no explicit configuration check, and for
every maxTries of at least 1 this unbound-board failure cannot occur. -/
theorem compute_wordle_invalid_config (gUV uvP ucP : Table) (cands : Pool)
    (secret : Word) (maxTries : Nat) (h : 1 ≤ maxTries) :
    compute_wordle gUV cands secret uvP ucP 0
        = (Except.error RunError.unboundBoard, [])
  ∧ (compute_wordle gUV cands secret uvP ucP maxTries).1
        ≠ Except.error RunError.unboundBoard := by
  constructor
  · rfl
  · rw [compute_wordle]
    show (computeWordleAux gUV uvP secret maxTries (maxTries + 1)
        cands 1 none).1 ≠ _
    rw [computeWordleAux, if_pos h]
    split
    · simp
    · split
      · simp
      · split
        · simp
        · split
          · simp
          · exact computeWordleAux_no_unbound gUV uvP secret maxTries _ _ _ _

/-- Witness for the amended C8 at maxTries = 1 on the two-word dictionary. -/
theorem compute_wordle_invalid_config_witness :
    (1 ≤ 1)
  ∧ (compute_wordle smallUV smallPool ['c','d'] smallUV smallUC 0
        = (Except.error RunError.unboundBoard, [])
  ∧ (compute_wordle smallUV smallPool ['c','d'] smallUV smallUC 1).1
        ≠ Except.error RunError.unboundBoard) :=
  ⟨by decide, compute_wordle_invalid_config smallUV smallUV smallUC smallPool
    ['c','d'] 1 (by decide)⟩
